import Mathlib

/-!
Verification of the Markdown-to-EPUB packaging engine of the pdf2epub
repository (src/pdf2epub/mark2epub.py).  Python string and path
operations are embedded as structural functions on lists of characters;
DOM construction by minidom is embedded as construction of structured
lists; the zip archive is embedded as a list of entries in write order.
-/

namespace Pdf2Epub

/-! Character-level utilities mirroring the Python string operations
used by mark2epub. -/

/-- Decimal digit character for a value below ten (used to embed the
Python str.format decimal conversion). -/
def digitChar (n : Nat) : Char :=
  if n = 0 then '0' else if n = 1 then '1' else if n = 2 then '2'
  else if n = 3 then '3' else if n = 4 then '4' else if n = 5 then '5'
  else if n = 6 then '6' else if n = 7 then '7' else if n = 8 then '8'
  else '9'

/-- Numeric value of a digit character. -/
def digitVal (c : Char) : Nat := c.toNat - 48

/-- Fuel-indexed most-significant-first decimal digits of a natural
number; the fuel makes the recursion structural. -/
def decDigitsAux : Nat → Nat → List Char
  | 0, _ => []
  | fuel + 1, n =>
    if n < 10 then [digitChar n]
    else decDigitsAux fuel (n / 10) ++ [digitChar (n % 10)]

/-- Decimal digits of a natural number, most significant first. -/
def decDigits (n : Nat) : List Char := decDigitsAux (n + 1) n

/-- Decimal string of a natural number (Python str(n) for n at least 0). -/
def decStr (n : Nat) : String := ⟨decDigits n⟩

/-- Zero-padded five-wide decimal rendering, the embedding of the
Python format specifier 05d used for all ordinal identifiers. -/
def pad5 (n : Nat) : String :=
  ⟨List.replicate (5 - (decDigits n).length) '0' ++ decDigits n⟩

/-- Reads a most-significant-first digit list back as a number. -/
def ofDec (l : List Char) : Nat :=
  l.foldl (fun a c => 10 * a + digitVal c) 0

theorem digitVal_digitChar (n : Nat) (h : n < 10) : digitVal (digitChar n) = n := by
  unfold digitChar
  split_ifs with h0 h1 h2 h3 h4 h5 h6 h7 h8 <;> simp_all [digitVal] <;> omega

theorem digitChar_isDigit (n : Nat) : (digitChar n).isDigit = true := by
  unfold digitChar
  split_ifs <;> decide

theorem decDigitsAux_fuel (f₁ f₂ n : Nat) (h₁ : n < f₁) (h₂ : n < f₂) :
    decDigitsAux f₁ n = decDigitsAux f₂ n := by
  induction f₁ generalizing n f₂ with
  | zero => omega
  | succ f ih =>
    cases f₂ with
    | zero => omega
    | succ g =>
      simp only [decDigitsAux]
      by_cases hn : n < 10
      · simp [hn]
      · simp only [hn, if_false]
        have hd : n / 10 < n := Nat.div_lt_self (by omega) (by omega)
        rw [ih g (n / 10) (by omega) (by omega)]

theorem ofDec_decDigits (n : Nat) : ofDec (decDigits n) = n := by
  induction n using Nat.strong_induction_on with
  | _ n ih =>
    by_cases hn : n < 10
    · simp [decDigits, decDigitsAux, hn, ofDec, digitVal_digitChar n hn]
    · have hd : n / 10 < n := Nat.div_lt_self (by omega) (by omega)
      have hstep : decDigits n = decDigits (n / 10) ++ [digitChar (n % 10)] := by
        show decDigitsAux (n + 1) n = _
        rw [show decDigitsAux (n + 1) n
              = decDigitsAux n (n / 10) ++ [digitChar (n % 10)] by
            simp [decDigitsAux, hn]]
        rw [decDigitsAux_fuel n (n / 10 + 1) (n / 10) (by omega) (by omega)]
        rfl
      rw [hstep]
      simp only [ofDec, List.foldl_append]
      have hrec := ih (n / 10) hd
      simp only [ofDec] at hrec
      rw [hrec]
      simp only [List.foldl_cons, List.foldl_nil]
      rw [digitVal_digitChar (n % 10) (Nat.mod_lt n (by omega))]
      omega

theorem ofDec_replicate_zero (k : Nat) (l : List Char) :
    ofDec (List.replicate k '0' ++ l) = ofDec l := by
  induction k with
  | zero => simp
  | succ m ih =>
    simp only [List.replicate_succ, List.cons_append]
    simpa [ofDec, digitVal] using ih

theorem ofDec_pad5 (n : Nat) : ofDec (pad5 n).data = n := by
  show ofDec (List.replicate (5 - (decDigits n).length) '0' ++ decDigits n) = n
  rw [ofDec_replicate_zero, ofDec_decDigits]

theorem pad5_injective : Function.Injective pad5 := by
  intro a b h
  have : ofDec (pad5 a).data = ofDec (pad5 b).data := by rw [h]
  rwa [ofDec_pad5, ofDec_pad5] at this

theorem decDigits_isDigit (n : Nat) : ∀ c ∈ decDigits n, c.isDigit = true := by
  have aux : ∀ fuel m, ∀ c ∈ decDigitsAux fuel m, c.isDigit = true := by
    intro fuel
    induction fuel with
    | zero => intro m c hc; simp [decDigitsAux] at hc
    | succ f ih =>
      intro m c hc
      simp only [decDigitsAux] at hc
      by_cases hm : m < 10
      · simp [hm] at hc; subst hc; exact digitChar_isDigit m
      · simp only [hm, if_false, List.mem_append, List.mem_singleton] at hc
        rcases hc with hc | hc
        · exact ih (m / 10) c hc
        · subst hc; exact digitChar_isDigit (m % 10)
  exact aux (n + 1) n

theorem pad5_isDigit (n : Nat) : ∀ c ∈ (pad5 n).data, c.isDigit = true := by
  intro c hc
  show c.isDigit = true
  have : c ∈ List.replicate (5 - (decDigits n).length) '0' ++ decDigits n := hc
  rcases List.mem_append.mp this with h | h
  · have := List.eq_of_mem_replicate h
    subst this; decide
  · exact decDigits_isDigit n c h

/-! Embeddings of the Python string and pathlib operations used by
mark2epub (str.split, str.strip, str.replace, the in operator,
Path.name, Path.suffix, Path.is_absolute, Path.relative_to). -/

/-- Does the needle occur at the head of the haystack (prefix test,
auxiliary for the Python in operator on strings). -/
def subAt : List Char → List Char → Bool
  | [], _ => true
  | _ :: _, [] => false
  | a :: na, b :: hb => a == b && subAt na hb

/-- The Python expression needle in haystack on strings: substring
containment. -/
def containsSub : List Char → List Char → Bool
  | n, [] => subAt n []
  | n, h@(_ :: t) => subAt n h || containsSub n t

/-- The Python str.endswith test at character-list level. -/
def endsWithL (s l : List Char) : Bool :=
  decide (s.length ≤ l.length) && subAt s (l.drop (l.length - s.length))

theorem subAt_iff (n h : List Char) : subAt n h = true ↔ ∃ t, h = n ++ t := by
  induction n generalizing h with
  | nil => simp [subAt]
  | cons a na ih =>
    cases h with
    | nil => simp [subAt]
    | cons b hb =>
      simp only [subAt, Bool.and_eq_true, beq_iff_eq, ih, List.cons_append,
        List.cons.injEq]
      constructor
      · rintro ⟨rfl, t, rfl⟩; exact ⟨t, rfl, rfl⟩
      · rintro ⟨t, rfl, rfl⟩; exact ⟨rfl, t, rfl⟩

theorem containsSub_iff (n h : List Char) :
    containsSub n h = true ↔ ∃ p t, h = p ++ n ++ t := by
  induction h with
  | nil =>
    simp only [containsSub, subAt_iff]
    constructor
    · rintro ⟨t, ht⟩
      exact ⟨[], t, by simpa using ht⟩
    · rintro ⟨p, t, ht⟩
      refine ⟨t, ?_⟩
      have hp : p = [] := by
        cases p with
        | nil => rfl
        | cons c q => simp at ht
      subst hp; simpa using ht
  | cons c t ih =>
    simp only [containsSub, Bool.or_eq_true, subAt_iff, ih]
    constructor
    · rintro (⟨u, hu⟩ | ⟨p, u, hu⟩)
      · exact ⟨[], u, by simpa using hu⟩
      · exact ⟨c :: p, u, by simp [hu]⟩
    · rintro ⟨p, u, hu⟩
      cases p with
      | nil => exact Or.inl ⟨u, by simpa using hu⟩
      | cons d q =>
        simp only [List.cons_append, List.cons.injEq] at hu
        exact Or.inr ⟨q, u, hu.2⟩

theorem endsWithL_iff (s l : List Char) :
    endsWithL s l = true ↔ ∃ p, l = p ++ s := by
  constructor
  · intro h
    simp only [endsWithL, Bool.and_eq_true, decide_eq_true_eq, subAt_iff] at h
    obtain ⟨hle, t, ht⟩ := h
    refine ⟨l.take (l.length - s.length), ?_⟩
    have hlen : (l.drop (l.length - s.length)).length = s.length := by
      simp [List.length_drop]; omega
    have ht2 : t = [] := by
      have hlen2 := congrArg List.length ht
      rw [hlen, List.length_append] at hlen2
      exact List.eq_nil_of_length_eq_zero (by omega)
    subst ht2
    simp only [List.append_nil] at ht
    conv_lhs => rw [← List.take_append_drop (l.length - s.length) l]
    rw [ht]
  · rintro ⟨p, rfl⟩
    simp only [endsWithL, Bool.and_eq_true, decide_eq_true_eq, subAt_iff]
    constructor
    · simp
    · refine ⟨[], ?_⟩
      have : (p ++ s).length - s.length = p.length := by simp
      rw [this, List.drop_left, List.append_nil]

theorem endsWithL_cons_containsSub (d : Char) (s l : List Char)
    (h : endsWithL (d :: s) l = true) : containsSub s l = true := by
  rw [endsWithL_iff] at h
  obtain ⟨p, rfl⟩ := h
  rw [containsSub_iff]
  exact ⟨p ++ [d], [], by simp⟩

theorem containsSub_of_endsWithL (s l : List Char)
    (h : endsWithL s l = true) : containsSub s l = true := by
  rw [endsWithL_iff] at h
  obtain ⟨p, rfl⟩ := h
  rw [containsSub_iff]
  exact ⟨p, [], by simp⟩

/-- Splits a character list at every slash (the component structure
pathlib builds for a path). -/
def consHead (c : Char) : List (List Char) → List (List Char)
  | [] => [[c]]
  | p :: ps => (c :: p) :: ps

/-- Path split on slashes. -/
def splitSlash : List Char → List (List Char)
  | [] => [[]]
  | '/' :: r => [] :: splitSlash r
  | c :: r => consHead c (splitSlash r)

/-- Non-empty path components (the parts of a pathlib PurePosixPath,
anchor aside). -/
def pathParts (p : String) : List (List Char) :=
  (splitSlash p.data).filter (fun seg => !seg.isEmpty)

/-- Python Path.is_absolute on a posix path. -/
def pathIsAbsolute (p : String) : Bool :=
  match p.data with
  | '/' :: _ => true
  | _ => false

/-- Python Path.name: the final path component. -/
def pathName (p : String) : String :=
  ⟨(pathParts p).getLastD []⟩

/-- Whether Path(p).relative_to(w) succeeds; pathlib raises ValueError
unless w-s components lead p-s components. -/
def pathRelToOk (p w : String) : Bool :=
  (pathIsAbsolute p == pathIsAbsolute w)
    && List.isPrefixOf (pathParts w) (pathParts p)

/-- The Python expression s.split(".")[0]. -/
def stemOf (s : String) : String :=
  ⟨s.data.takeWhile (fun c => c != '.')⟩

/-- The character run after the last dot, reversed back in place. -/
def afterLastDot (l : List Char) : List Char :=
  (l.reverse.takeWhile (fun c => c != '.')).reverse

/-- The Python expression s.split(".")[-1]. -/
def extLast (s : String) : String := ⟨afterLastDot s.data⟩

/-- Python Path.suffix of a file name: the final extension with its
dot, empty when there is none. -/
def pathSuffix (nm : List Char) : List Char :=
  if nm.any (fun c => c == '.') then
    let ext := nm.reverse.takeWhile (fun c => c != '.')
    if 0 < ext.length ∧ ext.length < nm.length - 1 then '.' :: ext.reverse
    else []
  else []

/-- ASCII lower-casing of one character (Python str.lower on the
characters that appear in file suffixes). -/
def lcChar (c : Char) : Char :=
  if 'A' ≤ c ∧ c ≤ 'Z' then Char.ofNat (c.toNat + 32) else c

/-- The Python expression src_path.suffix.lower() for a file path. -/
def suffixLower (p : String) : String :=
  ⟨(pathSuffix (pathName p).data).map lcChar⟩

/-- Python str.strip character class. -/
def isPySpace (c : Char) : Bool :=
  c == ' ' || c == '\t' || c == '\n' || c == '\r' || c == '\x0b' || c == '\x0c'

/-- Python str.strip(). -/
def pyStrip (s : String) : String :=
  ⟨((s.data.dropWhile isPySpace).reverse.dropWhile isPySpace).reverse⟩

/-- Fuel-indexed worker for Python str.replace (all occurrences,
left to right, non-overlapping). -/
def replaceAllAux : Nat → List Char → List Char → List Char → List Char
  | 0, _, _, l => l
  | fuel + 1, pat, sub, l =>
    if subAt pat l then sub ++ replaceAllAux fuel pat sub (l.drop pat.length)
    else
      match l with
      | [] => []
      | c :: t => c :: replaceAllAux fuel pat sub t

/-- Python str.replace(pat, sub). -/
def replaceAll (s pat sub : String) : String :=
  if pat.data.isEmpty then s
  else ⟨replaceAllAux (s.data.length + 1) pat.data sub.data s.data⟩

/-! The package document builder: get_packageOPF_XML, get_TOC_XML and
get_TOCNCX_XML of src/pdf2epub/mark2epub.py.  Element construction via
minidom createElement/appendChild is embedded as construction of
structured lists in the same order. -/

/-- One chapter record of description.json (keys markdown and css). -/
structure ChapterDecl where
  markdown : String
  css : String
deriving DecidableEq

/-- The description.json data that get_packageOPF_XML consumes. -/
structure DescriptionData where
  metadata : List (String × String)
  default_css : List String
  chapters : List ChapterDecl
  cover_image : Option String
deriving DecidableEq

/-- One item element of the OPF manifest; a missing attribute is
embedded as none. -/
structure ManifestItem where
  id : String
  href : String
  mediaType : Option String
  properties : Option String
deriving DecidableEq

/-- Python enumerate(xs) starting at a given index. -/
def enumFromIdx {α : Type} : Nat → List α → List (Nat × α)
  | _, [] => []
  | i, a :: l => (i, a) :: enumFromIdx (i + 1) l

/-- The chapter ordinal id, Python "s{:05d}".format(i). -/
def sId (i : Nat) : String := "s" ++ pad5 i

/-- The image ordinal id, Python "image-{:05d}".format(i). -/
def imageId (i : Nat) : String := "image-" ++ pad5 i

/-- The css ordinal id, Python "css-{:05d}".format(i). -/
def cssId (i : Nat) : String := "css-" ++ pad5 i

/-- The chapter content href, Python "s{:05d}-{}.xhtml".format(i,
md_filename.split(".")[0]). -/
def chapterHref (i : Nat) (md : String) : String :=
  sId i ++ "-" ++ stemOf md ++ ".xhtml"

/-- Media type attribute chosen for an image manifest item in
get_packageOPF_XML: substring tests on the whole filename, in source
order gif, jpg, jpeg, png; no attribute when nothing matches. -/
def opfImageMediaType (fn : String) : Option String :=
  if containsSub "gif".data fn.data then some "image/gif"
  else if containsSub "jpg".data fn.data then some "image/jpeg"
  else if containsSub "jpeg".data fn.data then some "image/jpg"
  else if containsSub "png".data fn.data then some "image/png"
  else none

/-- The three fixed manifest items appended first: navigation document,
legacy ncx, title page. -/
def opfFixedItems : List ManifestItem :=
  [⟨"toc", "TOC.xhtml", some "application/xhtml+xml", some "nav"⟩,
   ⟨"ncx", "toc.ncx", some "application/x-dtbncx+xml", none⟩,
   ⟨"titlepage", "titlepage.xhtml", some "application/xhtml+xml", none⟩]

/-- Manifest items of the chapter loop of get_packageOPF_XML. -/
def opfChapterItems (mds : List String) : List ManifestItem :=
  (enumFromIdx 0 mds).map (fun p =>
    ⟨sId p.1, chapterHref p.1 p.2, some "application/xhtml+xml", none⟩)

/-- Manifest items of the image loop of get_packageOPF_XML; the item
matching cover_image gains properties cover-image. -/
def opfImageItems (imgs : List String) (cover : Option String) :
    List ManifestItem :=
  (enumFromIdx 0 imgs).map (fun p =>
    ⟨imageId p.1, "images/" ++ p.2, opfImageMediaType p.2,
     if some p.2 = cover then some "cover-image" else none⟩)

/-- Manifest items of the css loop of get_packageOPF_XML. -/
def opfCssItems (css : List String) : List ManifestItem :=
  (enumFromIdx 0 css).map (fun p =>
    ⟨cssId p.1, "css/" ++ p.2, some "text/css", none⟩)

/-- The spine itemref idrefs, in element order: titlepage first, then
one per chapter filename. -/
def opfSpineIdrefs (mds : List String) : List String :=
  "titlepage" :: (enumFromIdx 0 mds).map (fun p => sId p.1)

/-- The OPF package document as structured data (metadata entries,
manifest, spine idrefs, single guide reference href). -/
structure OpfPackage where
  metadataElems : List (String × String)
  manifest : List ManifestItem
  spine : List String
  guideCoverHref : String
deriving DecidableEq

/-- get_packageOPF_XML as structured document construction.  Metadata
emits one element per non-empty value; the cover meta element added to
the metadata block is not tracked here since no claim concerns it. -/
def get_packageOPF_XML (mds imgs css : List String)
    (desc : DescriptionData) : OpfPackage :=
  { metadataElems := desc.metadata.filter (fun kv => kv.2.length != 0),
    manifest := opfFixedItems ++ opfChapterItems mds
      ++ opfImageItems imgs desc.cover_image ++ opfCssItems css,
    spine := opfSpineIdrefs mds,
    guideCoverHref := "titlepage.xhtml" }

/-- The links of the ordered list in get_TOC_XML, as (href, label)
pairs in loop order. -/
def get_TOC_XML_entries (mds : List String) : List (String × String) :=
  (enumFromIdx 0 mds).map (fun p => (chapterHref p.1 p.2, stemOf p.2))

/-- The navPoint elements of get_TOCNCX_XML, as (id, label, src)
triples in loop order. -/
def get_TOCNCX_entries (mds : List String) :
    List (String × String × String) :=
  (enumFromIdx 0 mds).map (fun p =>
    ("navpoint-" ++ decStr p.1, stemOf p.2, chapterHref p.1 p.2))

/-- The all_md_filenames accumulation loop of main: chapter markdown
names in declaration order, first occurrence kept. -/
def allMdFilenames (chapters : List ChapterDecl) : List String :=
  chapters.foldl
    (fun acc c => if c.markdown ∈ acc then acc else acc ++ [c.markdown]) []

/-- The all_css_filenames accumulation loop of main: default css first,
then each non-empty chapter css not yet present. -/
def allCssFilenames (defaultCss : List String)
    (chapters : List ChapterDecl) : List String :=
  chapters.foldl
    (fun acc c =>
      if c.css.length ≠ 0 ∧ c.css ∉ acc then acc ++ [c.css] else acc)
    defaultCss

theorem enumFromIdx_map_fst_f {α β : Type} (f : Nat → β) :
    ∀ (i : Nat) (l : List α),
      (enumFromIdx i l).map (fun p => f p.1) = (List.range' i l.length).map f := by
  intro i l
  induction l generalizing i with
  | nil => rfl
  | cons a t ih => simp [enumFromIdx, List.range'_succ, ih]

theorem enumFromIdx_map_list {α β : Type} (f : α → β) :
    ∀ (i : Nat) (l : List α),
      enumFromIdx i (l.map f) = (enumFromIdx i l).map (fun p => (p.1, f p.2)) := by
  intro i l
  induction l generalizing i with
  | nil => rfl
  | cons a t ih => simp [enumFromIdx, ih]

theorem allMdFilenames_eq_of_nodup (chs : List ChapterDecl)
    (h : (chs.map ChapterDecl.markdown).Nodup) :
    allMdFilenames chs = chs.map ChapterDecl.markdown := by
  have aux : ∀ (l : List ChapterDecl) (acc : List String),
      (∀ c ∈ l, c.markdown ∉ acc) → (l.map ChapterDecl.markdown).Nodup →
      l.foldl (fun acc c =>
        if c.markdown ∈ acc then acc else acc ++ [c.markdown]) acc
        = acc ++ l.map ChapterDecl.markdown := by
    intro l
    induction l with
    | nil => intro acc _ _; simp
    | cons c t ih =>
      intro acc hacc hnd
      simp only [List.map_cons, List.nodup_cons] at hnd
      have hc : c.markdown ∉ acc := hacc c (by simp)
      simp only [List.foldl_cons, hc, if_false]
      rw [ih (acc ++ [c.markdown]) ?_ hnd.2]
      · simp
      · intro d hd
        simp only [List.mem_append, List.mem_singleton]
        push_neg
        refine ⟨hacc d (by simp [hd]), ?_⟩
        intro hdc
        exact hnd.1 (hdc ▸ List.mem_map_of_mem ChapterDecl.markdown hd)
  simpa using aux chs [] (by simp) h

/-- Claim C2: for every chapter filename list, the chapter ids
referenced by the OPF spine equal the manifest chapter ids in order,
and the hrefs referenced by the TOC.xhtml ordered list and by the
toc.ncx navMap equal the manifest chapter hrefs in order, so all three
documents reference identical chapter ids and hrefs in identical
order. -/
theorem spine_toc_ncx_reference_consistency (mds : List String) :
    (opfSpineIdrefs mds).tail = (opfChapterItems mds).map ManifestItem.id
  ∧ (get_TOC_XML_entries mds).map Prod.fst
      = (opfChapterItems mds).map ManifestItem.href
  ∧ (get_TOCNCX_entries mds).map (fun p => p.2.2)
      = (opfChapterItems mds).map ManifestItem.href := by
  refine ⟨?_, ?_, ?_⟩ <;>
    simp [opfSpineIdrefs, opfChapterItems, get_TOC_XML_entries,
      get_TOCNCX_entries, List.map_map, Function.comp]

/-- Claim C3: for a non-empty duplicate-free declared chapter list, the
spine is titlepage followed by s00000, s00001, ... in declaration
order, and the i-th chapter manifest item is built from the i-th
declared chapter, independently of any filename ordering on disk. -/
theorem spine_follows_declaration_order (decls : List ChapterDecl)
    (hne : decls ≠ [])
    (hnd : (decls.map ChapterDecl.markdown).Nodup) :
    opfSpineIdrefs (allMdFilenames decls)
      = "titlepage" :: (List.range decls.length).map sId
  ∧ opfChapterItems (allMdFilenames decls)
      = (enumFromIdx 0 decls).map (fun p =>
          ⟨sId p.1, chapterHref p.1 p.2.markdown,
           some "application/xhtml+xml", none⟩) := by
  have hmd := allMdFilenames_eq_of_nodup decls hnd
  constructor
  · rw [opfSpineIdrefs, hmd, enumFromIdx_map_fst_f sId 0,
      List.range_eq_range', List.length_map]
  · rw [opfChapterItems, hmd, enumFromIdx_map_list, List.map_map]
    rfl

/-- Witness for C3 at the concrete declaration order b.md before a.md,
the reverse of the alphabetical order. -/
theorem spine_follows_declaration_order_witness :
    opfSpineIdrefs (allMdFilenames [⟨"b.md", ""⟩, ⟨"a.md", ""⟩])
      = ["titlepage", "s00000", "s00001"] :=
  (spine_follows_declaration_order [⟨"b.md", ""⟩, ⟨"a.md", ""⟩]
    (by simp) (by simp)).1.trans (by decide)

/-- Counterexample for C4: the filename photo.jpeg has extension .jpeg,
which the claim says yields image/jpeg, but get_packageOPF_XML assigns
the media type by substring matching and emits the non-standard
image/jpg for it. -/
theorem mediaType_extension_counterexample :
    opfImageMediaType "photo.jpeg" = some "image/jpg"
  ∧ (some "image/jpg" : Option String) ≠ some "image/jpeg" := by
  constructor
  · decide
  · decide

/-- Claim C4 amended: the media type of an image manifest item is
chosen by substring matching on the whole filename, not by extension: a
name ending in .gif gets image/gif; ending in .jpg gets image/jpeg
provided gif does not occur in the name; ending in .jpeg gets the
non-standard image/jpg provided neither gif nor jpg occurs; ending in
.png gets image/png provided none of gif, jpg, jpeg occurs; a name
containing none of the four substrings gets no media-type attribute,
yet its manifest item is still emitted (one item per image, none
rejected). -/
theorem mediaType_by_substring (fn : String) :
    (endsWithL ".gif".data fn.data = true →
      opfImageMediaType fn = some "image/gif")
  ∧ (endsWithL ".jpg".data fn.data = true →
      containsSub "gif".data fn.data = false →
      opfImageMediaType fn = some "image/jpeg")
  ∧ (endsWithL ".jpeg".data fn.data = true →
      containsSub "gif".data fn.data = false →
      containsSub "jpg".data fn.data = false →
      opfImageMediaType fn = some "image/jpg")
  ∧ (endsWithL ".png".data fn.data = true →
      containsSub "gif".data fn.data = false →
      containsSub "jpg".data fn.data = false →
      containsSub "jpeg".data fn.data = false →
      opfImageMediaType fn = some "image/png")
  ∧ (containsSub "gif".data fn.data = false →
      containsSub "jpg".data fn.data = false →
      containsSub "jpeg".data fn.data = false →
      containsSub "png".data fn.data = false →
      opfImageMediaType fn = none)
  ∧ (∀ (imgs : List String) (cover : Option String),
      (opfImageItems imgs cover).length = imgs.length) := by
  refine ⟨?_, ?_, ?_, ?_, ?_, ?_⟩
  · intro h
    have hg : containsSub "gif".data fn.data = true :=
      endsWithL_cons_containsSub '.' "gif".data fn.data h
    simp [opfImageMediaType, hg]
  · intro h hg
    have hj : containsSub "jpg".data fn.data = true :=
      endsWithL_cons_containsSub '.' "jpg".data fn.data h
    simp [opfImageMediaType, hg, hj]
  · intro h hg hj
    have hj2 : containsSub "jpeg".data fn.data = true :=
      endsWithL_cons_containsSub '.' "jpeg".data fn.data h
    simp [opfImageMediaType, hg, hj, hj2]
  · intro h hg hj hj2
    have hp : containsSub "png".data fn.data = true :=
      endsWithL_cons_containsSub '.' "png".data fn.data h
    simp [opfImageMediaType, hg, hj, hj2, hp]
  · intro hg hj hj2 hp
    simp [opfImageMediaType, hg, hj, hj2, hp]
  · intro imgs cover
    have aux : ∀ (i : Nat) (l : List String), (enumFromIdx i l).length = l.length := by
      intro i l
      induction l generalizing i with
      | nil => rfl
      | cons a t ih => simp [enumFromIdx, ih]
    simp [opfImageItems, aux]

/-- Witness for the amended C4 at the concrete filename cover.jpg. -/
theorem mediaType_by_substring_witness :
    opfImageMediaType "cover.jpg" = some "image/jpeg" :=
  (mediaType_by_substring "cover.jpg").2.1 (by decide) (by decide)

/-! Uniqueness of manifest ids and hrefs (claim C9). -/

theorem list_append_left_cancel {α : Type} :
    ∀ (p l m : List α), p ++ l = p ++ m → l = m := by
  intro p
  induction p with
  | nil => intro l m h; simpa using h
  | cons a t ih =>
    intro l m h
    simp only [List.cons_append, List.cons.injEq] at h
    exact ih l m h.2

theorem append_delim_inj {α : Type} (d : α) :
    ∀ (l1 l2 r1 r2 : List α), (∀ c ∈ l1, c ≠ d) → (∀ c ∈ l2, c ≠ d) →
      l1 ++ d :: r1 = l2 ++ d :: r2 → l1 = l2 ∧ r1 = r2 := by
  intro l1
  induction l1 with
  | nil =>
    intro l2 r1 r2 _ h2 heq
    cases l2 with
    | nil => simpa using heq
    | cons c t =>
      simp only [List.nil_append, List.cons_append, List.cons.injEq] at heq
      exact absurd heq.1.symm (h2 c (by simp))
  | cons a t ih =>
    intro l2 r1 r2 h1 h2 heq
    cases l2 with
    | nil =>
      simp only [List.cons_append, List.nil_append, List.cons.injEq] at heq
      exact absurd heq.1 (h1 a (by simp))
    | cons b u =>
      simp only [List.cons_append, List.cons.injEq] at heq
      obtain ⟨rfl, heq⟩ := heq
      have := ih u r1 r2 (fun c hc => h1 c (by simp [hc]))
        (fun c hc => h2 c (by simp [hc])) heq
      simp [this.1, this.2]

theorem string_eq_of_data_eq (s t : String) (h : s.data = t.data) : s = t := by
  cases s; cases t; exact congrArg String.mk h

theorem pad5_data_injective (a b : Nat)
    (h : (pad5 a).data = (pad5 b).data) : a = b :=
  pad5_injective (string_eq_of_data_eq _ _ h)

theorem pad5_no_dash (n : Nat) : ∀ c ∈ (pad5 n).data, c ≠ '-' := by
  intro c hc he
  have := pad5_isDigit n c hc
  subst he
  simp [Char.isDigit] at this

/-- First character of a string, the default being a blank. -/
def headCharD (s : String) : Char := s.data.headD ' '

theorem ne_of_headCharD (x y : String) (h : headCharD x ≠ headCharD y) :
    x ≠ y := fun he => h (congrArg headCharD he)

theorem sId_injective : Function.Injective sId := by
  intro a b h
  have hd := congrArg String.data h
  have ha : (sId a).data = 's' :: (pad5 a).data := rfl
  have hb : (sId b).data = 's' :: (pad5 b).data := rfl
  rw [ha, hb, List.cons.injEq] at hd
  exact pad5_data_injective a b hd.2

theorem imageId_injective : Function.Injective imageId := by
  intro a b h
  have hd := congrArg String.data h
  have ha : (imageId a).data = "image-".data ++ (pad5 a).data := rfl
  have hb : (imageId b).data = "image-".data ++ (pad5 b).data := rfl
  rw [ha, hb] at hd
  exact pad5_data_injective a b (list_append_left_cancel _ _ _ hd)

theorem cssId_injective : Function.Injective cssId := by
  intro a b h
  have hd := congrArg String.data h
  have ha : (cssId a).data = "css-".data ++ (pad5 a).data := rfl
  have hb : (cssId b).data = "css-".data ++ (pad5 b).data := rfl
  rw [ha, hb] at hd
  exact pad5_data_injective a b (list_append_left_cancel _ _ _ hd)

theorem chapterHref_data (i : Nat) (a : String) :
    (chapterHref i a).data
      = 's' :: ((pad5 i).data
          ++ '-' :: ((stemOf a).data ++ ".xhtml".data)) := by
  show (((("s" ++ pad5 i) ++ "-") ++ stemOf a) ++ ".xhtml").data = _
  simp [String.data_append]

theorem chapterHref_fst_inj (i j : Nat) (a b : String)
    (h : chapterHref i a = chapterHref j b) : i = j := by
  have hd := congrArg String.data h
  rw [chapterHref_data, chapterHref_data, List.cons.injEq] at hd
  have := append_delim_inj '-' (pad5 i).data (pad5 j).data _ _
    (pad5_no_dash i) (pad5_no_dash j) hd.2
  exact pad5_data_injective i j this.1

theorem mem_enumFromIdx_le {α : Type} :
    ∀ (k : Nat) (l : List α) (p : Nat × α), p ∈ enumFromIdx k l → k ≤ p.1 := by
  intro k l
  induction l generalizing k with
  | nil => intro p hp; simp [enumFromIdx] at hp
  | cons a t ih =>
    intro p hp
    simp only [enumFromIdx, List.mem_cons] at hp
    rcases hp with rfl | hp
    · simp
    · exact Nat.le_trans (by omega) (ih (k + 1) p hp)

theorem nodup_map_enumFromIdx {α β : Type} (f : Nat × α → β)
    (hinj : ∀ i a j b, f (i, a) = f (j, b) → i = j) :
    ∀ (k : Nat) (l : List α), ((enumFromIdx k l).map f).Nodup := by
  intro k l
  induction l generalizing k with
  | nil => simp [enumFromIdx]
  | cons a t ih =>
    simp only [enumFromIdx, List.map_cons, List.nodup_cons]
    refine ⟨?_, ih (k + 1)⟩
    intro hmem
    obtain ⟨p, hp, hfp⟩ := List.mem_map.mp hmem
    have hk := mem_enumFromIdx_le (k + 1) t p hp
    have : p.1 = k := by
      have := hinj p.1 p.2 k a (by simpa using hfp)
      omega
    omega

theorem enumFromIdx_map_snd_f {α β : Type} (g : α → β) :
    ∀ (i : Nat) (l : List α),
      (enumFromIdx i l).map (fun p => g p.2) = l.map g := by
  intro i l
  induction l generalizing i with
  | nil => rfl
  | cons a t ih => simp [enumFromIdx, ih]

theorem nodup_append_of {α : Type} (l₁ l₂ : List α) (h₁ : l₁.Nodup)
    (h₂ : l₂.Nodup) (hd : ∀ a ∈ l₁, a ∉ l₂) : (l₁ ++ l₂).Nodup := by
  rw [List.nodup_append]
  exact ⟨h₁, h₂, fun a ha hb => hd a ha hb⟩

theorem nodup_append4 {α : Type} (A B C D : List α)
    (hA : A.Nodup) (hB : B.Nodup) (hC : C.Nodup) (hD : D.Nodup)
    (hAB : ∀ a ∈ A, a ∉ B) (hAC : ∀ a ∈ A, a ∉ C) (hAD : ∀ a ∈ A, a ∉ D)
    (hBC : ∀ a ∈ B, a ∉ C) (hBD : ∀ a ∈ B, a ∉ D)
    (hCD : ∀ a ∈ C, a ∉ D) : (A ++ B ++ C ++ D).Nodup := by
  have h1 : (A ++ B).Nodup := nodup_append_of A B hA hB hAB
  have h2 : (A ++ B ++ C).Nodup := by
    refine nodup_append_of _ _ h1 hC ?_
    intro a ha
    rcases List.mem_append.mp ha with h | h
    exacts [hAC a h, hBC a h]
  refine nodup_append_of _ _ h2 hD ?_
  intro a ha
  rcases List.mem_append.mp ha with h | h
  · rcases List.mem_append.mp h with h' | h'
    exacts [hAD a h', hBD a h']
  · exact hCD a h

theorem mem_map_enum_ex {α β : Type} (f : Nat × α → β) (k : Nat)
    (l : List α) (x : β) (hx : x ∈ (enumFromIdx k l).map f) :
    ∃ p, x = f p := by
  obtain ⟨p, _, h⟩ := List.mem_map.mp hx
  exact ⟨p, h.symm⟩

theorem headCharD_sId (i : Nat) : headCharD (sId i) = 's' := rfl

theorem headCharD_imageId (i : Nat) : headCharD (imageId i) = 'i' := rfl

theorem headCharD_cssId (i : Nat) : headCharD (cssId i) = 'c' := rfl

theorem headCharD_chapterHref (i : Nat) (md : String) :
    headCharD (chapterHref i md) = 's' := rfl

theorem headCharD_imagesHref (fn : String) :
    headCharD ("images/" ++ fn) = 'i' := rfl

theorem headCharD_cssHref (fn : String) :
    headCharD ("css/" ++ fn) = 'c' := rfl

theorem string_append_left_injective (p : String) :
    Function.Injective (fun s => p ++ s) := by
  intro a b h
  have hd := congrArg String.data h
  simp only [String.data_append] at hd
  exact string_eq_of_data_eq a b (list_append_left_cancel p.data _ _ hd)

theorem manifest_id_components (mds imgs css : List String)
    (desc : DescriptionData) :
    (get_packageOPF_XML mds imgs css desc).manifest.map ManifestItem.id
      = ["toc", "ncx", "titlepage"]
        ++ (enumFromIdx 0 mds).map (fun p => sId p.1)
        ++ (enumFromIdx 0 imgs).map (fun p => imageId p.1)
        ++ (enumFromIdx 0 css).map (fun p => cssId p.1) := by
  simp [get_packageOPF_XML, opfFixedItems, opfChapterItems, opfImageItems,
    opfCssItems, List.map_map, Function.comp_def]

theorem manifest_href_components (mds imgs css : List String)
    (desc : DescriptionData) :
    (get_packageOPF_XML mds imgs css desc).manifest.map ManifestItem.href
      = ["TOC.xhtml", "toc.ncx", "titlepage.xhtml"]
        ++ (enumFromIdx 0 mds).map (fun p => chapterHref p.1 p.2)
        ++ imgs.map (fun fn => "images/" ++ fn)
        ++ css.map (fun fn => "css/" ++ fn) := by
  simp only [get_packageOPF_XML, opfFixedItems, opfChapterItems,
    opfImageItems, opfCssItems, List.map_append, List.map_map]
  rw [← enumFromIdx_map_snd_f (fun fn => "images/" ++ fn) 0 imgs,
    ← enumFromIdx_map_snd_f (fun fn => "css/" ++ fn) 0 css]
  simp [Function.comp_def]

/-- Claim C9 amended: manifest item ids are always pairwise distinct,
and ordinal ids s00000, image-00000, css-00000 are assigned in the
enumeration order of the chapter, image and css lists; manifest hrefs
are pairwise distinct provided the image filename list and the css
filename list carry no duplicates (the chapter loop used by main
deduplicates, and os.listdir yields no duplicates, but a duplicated
default_css entry in description.json reaches get_packageOPF_XML
unchanged and makes two css items share one href). -/
theorem manifest_ids_hrefs_unique (mds imgs css : List String)
    (desc : DescriptionData) (himgs : imgs.Nodup) (hcss : css.Nodup) :
    ((get_packageOPF_XML mds imgs css desc).manifest.map
        ManifestItem.id).Nodup
  ∧ ((get_packageOPF_XML mds imgs css desc).manifest.map
        ManifestItem.href).Nodup
  ∧ (opfChapterItems mds).map ManifestItem.id
      = (List.range mds.length).map sId
  ∧ (opfImageItems imgs desc.cover_image).map ManifestItem.id
      = (List.range imgs.length).map imageId
  ∧ (opfCssItems css).map ManifestItem.id
      = (List.range css.length).map cssId := by
  refine ⟨?_, ?_, ?_, ?_, ?_⟩
  · rw [manifest_id_components]
    refine nodup_append4 _ _ _ _ (by decide)
      (nodup_map_enumFromIdx _ (fun i a j b h => sId_injective h) 0 mds)
      (nodup_map_enumFromIdx _ (fun i a j b h => imageId_injective h) 0 imgs)
      (nodup_map_enumFromIdx _ (fun i a j b h => cssId_injective h) 0 css)
      ?_ ?_ ?_ ?_ ?_ ?_
    · intro a ha hb
      obtain ⟨p, rfl⟩ := mem_map_enum_ex _ 0 mds a hb
      simp only [List.mem_cons, List.not_mem_nil, or_false] at ha
      rcases ha with h | h | h <;>
        (have h2 := congrArg headCharD h;
         rw [headCharD_sId] at h2;
         exact absurd h2 (by decide))
    · intro a ha hb
      obtain ⟨p, rfl⟩ := mem_map_enum_ex _ 0 imgs a hb
      simp only [List.mem_cons, List.not_mem_nil, or_false] at ha
      rcases ha with h | h | h <;>
        (have h2 := congrArg headCharD h;
         rw [headCharD_imageId] at h2;
         exact absurd h2 (by decide))
    · intro a ha hb
      obtain ⟨p, rfl⟩ := mem_map_enum_ex _ 0 css a hb
      simp only [List.mem_cons, List.not_mem_nil, or_false] at ha
      rcases ha with h | h | h <;>
        (have h2 := congrArg headCharD h;
         rw [headCharD_cssId] at h2;
         exact absurd h2 (by decide))
    · intro a ha hb
      obtain ⟨p, rfl⟩ := mem_map_enum_ex _ 0 mds a ha
      obtain ⟨q, hq⟩ := mem_map_enum_ex _ 0 imgs _ hb
      have := congrArg headCharD hq
      rw [headCharD_sId, headCharD_imageId] at this
      exact absurd this (by decide)
    · intro a ha hb
      obtain ⟨p, rfl⟩ := mem_map_enum_ex _ 0 mds a ha
      obtain ⟨q, hq⟩ := mem_map_enum_ex _ 0 css _ hb
      have := congrArg headCharD hq
      rw [headCharD_sId, headCharD_cssId] at this
      exact absurd this (by decide)
    · intro a ha hb
      obtain ⟨p, rfl⟩ := mem_map_enum_ex _ 0 imgs a ha
      obtain ⟨q, hq⟩ := mem_map_enum_ex _ 0 css _ hb
      have := congrArg headCharD hq
      rw [headCharD_imageId, headCharD_cssId] at this
      exact absurd this (by decide)
  · rw [manifest_href_components]
    refine nodup_append4 _ _ _ _ (by decide)
      (nodup_map_enumFromIdx _ (fun i a j b h => chapterHref_fst_inj i j a b h) 0 mds)
      (himgs.map (string_append_left_injective "images/"))
      (hcss.map (string_append_left_injective "css/"))
      ?_ ?_ ?_ ?_ ?_ ?_
    · intro a ha hb
      obtain ⟨p, rfl⟩ := mem_map_enum_ex _ 0 mds a hb
      simp only [List.mem_cons, List.not_mem_nil, or_false] at ha
      rcases ha with h | h | h <;>
        (have h2 := congrArg headCharD h;
         rw [headCharD_chapterHref] at h2;
         exact absurd h2 (by decide))
    · intro a ha hb
      obtain ⟨fn, _, rfl⟩ := List.mem_map.mp hb
      simp only [List.mem_cons, List.not_mem_nil, or_false] at ha
      rcases ha with h | h | h <;>
        (have h2 := congrArg headCharD h;
         rw [headCharD_imagesHref] at h2;
         exact absurd h2 (by decide))
    · intro a ha hb
      obtain ⟨fn, _, rfl⟩ := List.mem_map.mp hb
      simp only [List.mem_cons, List.not_mem_nil, or_false] at ha
      rcases ha with h | h | h <;>
        (have h2 := congrArg headCharD h;
         rw [headCharD_cssHref] at h2;
         exact absurd h2 (by decide))
    · intro a ha hb
      obtain ⟨p, rfl⟩ := mem_map_enum_ex _ 0 mds a ha
      obtain ⟨fn, _, hfn⟩ := List.mem_map.mp hb
      have := congrArg headCharD hfn
      rw [headCharD_imagesHref, headCharD_chapterHref] at this
      exact absurd this (by decide)
    · intro a ha hb
      obtain ⟨p, rfl⟩ := mem_map_enum_ex _ 0 mds a ha
      obtain ⟨fn, _, hfn⟩ := List.mem_map.mp hb
      have := congrArg headCharD hfn
      rw [headCharD_cssHref, headCharD_chapterHref] at this
      exact absurd this (by decide)
    · intro a ha hb
      obtain ⟨fn, _, hfn⟩ := List.mem_map.mp ha
      obtain ⟨gn, _, hgn⟩ := List.mem_map.mp hb
      have := congrArg headCharD (hfn.trans hgn.symm)
      rw [headCharD_imagesHref, headCharD_cssHref] at this
      exact absurd this (by decide)
  · rw [opfChapterItems, List.map_map]
    rw [show (ManifestItem.id ∘ fun p : Nat × String =>
        (⟨sId p.1, chapterHref p.1 p.2, some "application/xhtml+xml", none⟩ :
          ManifestItem)) = fun p : Nat × String => sId p.1 from rfl]
    rw [enumFromIdx_map_fst_f sId 0 mds, List.range_eq_range']
  · rw [opfImageItems, List.map_map]
    rw [show (ManifestItem.id ∘ fun p : Nat × String =>
        (⟨imageId p.1, "images/" ++ p.2, opfImageMediaType p.2,
          if some p.2 = desc.cover_image then some "cover-image"
          else none⟩ : ManifestItem))
        = fun p : Nat × String => imageId p.1 from rfl]
    rw [enumFromIdx_map_fst_f imageId 0 imgs, List.range_eq_range']
  · rw [opfCssItems, List.map_map]
    rw [show (ManifestItem.id ∘ fun p : Nat × String =>
        (⟨cssId p.1, "css/" ++ p.2, some "text/css", none⟩ : ManifestItem))
        = fun p : Nat × String => cssId p.1 from rfl]
    rw [enumFromIdx_map_fst_f cssId 0 css, List.range_eq_range']

/-- Witness for the amended C9 at a concrete one-chapter, one-image,
one-css package. -/
theorem manifest_ids_hrefs_unique_witness :
    ((get_packageOPF_XML ["a.md"] ["x.png"] ["style.css"]
        ⟨[], ["style.css"], [], some "x.png"⟩).manifest.map
        ManifestItem.href).Nodup :=
  (manifest_ids_hrefs_unique ["a.md"] ["x.png"] ["style.css"]
    ⟨[], ["style.css"], [], some "x.png"⟩ (by decide) (by decide)).2.1

/-- Counterexample for C9: a description.json whose default_css lists
style.css twice reaches get_packageOPF_XML unchanged through the css
accumulation loop, and the resulting manifest contains two items with
the same href css/style.css, so hrefs are not pairwise distinct for
every input list. -/
theorem manifest_href_unique_counterexample :
    allCssFilenames ["style.css", "style.css"] [] = ["style.css", "style.css"]
  ∧ ¬ ((get_packageOPF_XML [] [] ["style.css", "style.css"]
        ⟨[], ["style.css", "style.css"], [], none⟩).manifest.map
        ManifestItem.href).Nodup := by
  constructor
  · rfl
  · decide

/-! The container writer: the zip-producing tail of main in
src/pdf2epub/mark2epub.py, embedded as the list of members in write
order.  Generated documents are carried structurally; file bytes and
the externally rendered chapter XHTML are abstract inputs. -/

/-- Compression mode of one zip member; writestr without an explicit
mode inherits ZIP_STORED from the archive constructor. -/
inductive ZipCompression
  | stored
  | deflated
deriving DecidableEq

/-- Payload of one zip member: raw bytes, or one of the generated
documents tracked structurally. -/
inductive ZipData
  | raw (bytes : String)
  | containerDoc
  | opfDoc (p : OpfPackage)
  | coverpageDoc (title authors : String)
  | tocDoc (css mds : List String)
  | ncxDoc (mds : List String)
deriving DecidableEq

/-- One member of the produced zip archive. -/
structure ZipEntry where
  name : String
  comp : ZipCompression
  data : ZipData
deriving DecidableEq

/-- The state main consumes once metadata collection and the chapter
review loop are done: the description data, the directory listings, the
aggregated referenced-image set, and the external byte producers
(markdown renderer, PIL round trip, file reads). -/
structure MainInput where
  chapters : List ChapterDecl
  default_css : List String
  metadata : List (String × String)
  cover_image : Option String
  imagesOnDisk : List String
  cssOnDisk : List String
  cssDirExists : Bool
  referencedImages : List String
  chapterXhtml : String → String
  optimizedBytes : String → String
  originalBytes : String → String
  cssBytes : String → String
  pilOk : String → Bool

/-- The description.json record carried by a main input. -/
def descOf (inp : MainInput) : DescriptionData :=
  ⟨inp.metadata, inp.default_css, inp.chapters, inp.cover_image⟩

/-- Python json_data["metadata"].get("dc:title", "Untitled Document"). -/
def titleOf (inp : MainInput) : String :=
  (List.lookup "dc:title" inp.metadata).getD "Untitled Document"

/-- Python json_data["metadata"].get("dc:creator", None): a missing
author renders as the string None on the cover page. -/
def authorsOf (inp : MainInput) : String :=
  match List.lookup "dc:creator" inp.metadata with
  | some a => a
  | none => "None"

/-- The suffixes copy_and_optimize_image saves at dest_path; any other
suffix is saved at dest_path.with_suffix(.jpg) instead, so the read
back of dest_path in main fails. -/
def saveSuffixes : List String := [".jpg", ".jpeg", ".png"]

/-- The extension whitelist of the all_image_filenames listing. -/
def supportedExts : List String := ["gif", "jpg", "jpeg", "png"]

/-- get_all_filenames: directory entries whose split(".")[-1] is in the
extension list. -/
def get_all_filenames (files : List String) (exts : List String) :
    List String :=
  files.filter (fun fn => decide (extLast fn ∈ exts))

/-- Whether the optimize-then-read-back step of main stores bytes for a
referenced image: the source must exist, PIL must succeed, and the
suffix must be one copy_and_optimize_image saves in place; otherwise
the per-image try block fails and the image is skipped with a
warning. -/
def imageProcessedOk (inp : MainInput) (img : String) : Bool :=
  decide (img ∈ inp.imagesOnDisk) && inp.pilOk img
    && decide (suffixLower img ∈ saveSuffixes)

/-- The processed_images mapping of main, in referenced order. -/
def processedImages (inp : MainInput) : List (String × String) :=
  inp.referencedImages.filterMap (fun img =>
    if imageProcessedOk inp img then some (img, inp.optimizedBytes img)
    else none)

/-- The remaining_images of main: listed images whose name was not
stored by the processing loop. -/
def remainingImages (inp : MainInput) : List String :=
  (get_all_filenames inp.imagesOnDisk supportedExts).filter
    (fun fn => !(processedImages inp).any (fun p => p.1 == fn))

/-- The chapter members written by main, one per declared chapter. -/
def chapterEntries (inp : MainInput) : List ZipEntry :=
  (enumFromIdx 0 inp.chapters).map (fun p =>
    ⟨"OPS/" ++ sId p.1 ++ "-" ++ stemOf p.2.markdown ++ ".xhtml",
     ZipCompression.deflated, ZipData.raw (inp.chapterXhtml p.2.markdown)⟩)

/-- The zip members written by main, in write order: mimetype first and
stored, then container.xml, package.opf, the title page, the chapters,
the processed images, the two TOC documents, the remaining images, and
the css files that exist on disk. -/
def mainZipEntries (inp : MainInput) : List ZipEntry :=
  [⟨"mimetype", ZipCompression.stored, ZipData.raw "application/epub+zip"⟩,
   ⟨"META-INF/container.xml", ZipCompression.deflated, ZipData.containerDoc⟩,
   ⟨"OPS/package.opf", ZipCompression.deflated,
    ZipData.opfDoc (get_packageOPF_XML (allMdFilenames inp.chapters)
      (get_all_filenames inp.imagesOnDisk supportedExts)
      (allCssFilenames inp.default_css inp.chapters) (descOf inp))⟩,
   ⟨"OPS/titlepage.xhtml", ZipCompression.deflated,
    ZipData.coverpageDoc (titleOf inp) (authorsOf inp)⟩]
  ++ chapterEntries inp
  ++ (processedImages inp).map (fun p =>
      ⟨"OPS/images/" ++ p.1, ZipCompression.deflated, ZipData.raw p.2⟩)
  ++ [⟨"OPS/TOC.xhtml", ZipCompression.deflated,
      ZipData.tocDoc inp.default_css (allMdFilenames inp.chapters)⟩,
      ⟨"OPS/toc.ncx", ZipCompression.deflated,
      ZipData.ncxDoc (allMdFilenames inp.chapters)⟩]
  ++ (remainingImages inp).map (fun fn =>
      ⟨"OPS/images/" ++ fn, ZipCompression.deflated,
       ZipData.raw (inp.originalBytes fn)⟩)
  ++ (if inp.cssDirExists then
        ((allCssFilenames inp.default_css inp.chapters).filter
          (fun c => decide (c ∈ inp.cssOnDisk))).map (fun c =>
          ⟨"OPS/css/" ++ c, ZipCompression.deflated,
           ZipData.raw (inp.cssBytes c)⟩)
      else [])

/-- Claim C1: for every build, the first member of the produced zip is
named mimetype, stored without compression, with content exactly
application/epub+zip, and it is the only member not deflated: every
entry after it carries the deflated mode. -/
theorem mimetype_first_stored_uncompressed (inp : MainInput) :
    (mainZipEntries inp).head?
      = some ⟨"mimetype", ZipCompression.stored,
          ZipData.raw "application/epub+zip"⟩
  ∧ ∀ e ∈ (mainZipEntries inp).tail, e.comp = ZipCompression.deflated := by
  constructor
  · rfl
  · intro e he
    by_cases hcd : inp.cssDirExists
    all_goals
      simp [mainZipEntries, chapterEntries, hcd, List.cons_append,
        List.tail_cons, List.mem_cons, List.mem_append, List.mem_map] at he
    · casesm* _ ∨ _, Exists _, _ ∧ _
      all_goals (subst_vars; rfl)
    · casesm* _ ∨ _, Exists _, _ ∧ _
      all_goals (subst_vars; rfl)

/-! Image member accounting (claim C5). -/

/-- Character at index four, used to separate the OPS name families. -/
def char4D (s : String) : Char := s.data.getD 4 ' '

theorem ne_of_char4D (x y : String) (h : char4D x ≠ char4D y) : x ≠ y :=
  fun he => h (congrArg char4D he)

theorem headCharD_opsImagesName (fn : String) :
    headCharD ("OPS/images/" ++ fn) = 'O' := rfl

theorem char4D_imagesName (fn : String) :
    char4D ("OPS/images/" ++ fn) = 'i' := rfl

theorem char4D_chapterName (i : Nat) (md : String) :
    char4D ("OPS/" ++ sId i ++ "-" ++ stemOf md ++ ".xhtml") = 's' := rfl

theorem char4D_cssName (c : String) : char4D ("OPS/css/" ++ c) = 'c' := rfl

theorem beq_append_cancel (pre a b : String) :
    (pre ++ a == pre ++ b) = (a == b) := by
  by_cases h : a = b
  · subst h; simp
  · have h2 : pre ++ a ≠ pre ++ b :=
      fun hh => h (string_append_left_injective pre hh)
    rw [beq_eq_false_iff_ne.mpr h, beq_eq_false_iff_ne.mpr h2]

theorem filter_nil_of_none {α : Type} (p : α → Bool) :
    ∀ l : List α, (∀ a ∈ l, p a = false) → l.filter p = [] := by
  intro l h
  induction l with
  | nil => rfl
  | cons a t ih =>
    rw [List.filter_cons, h a (by simp), if_neg (by simp)]
    exact ih (fun b hb => h b (by simp [hb]))

theorem filter_map_comm {α β : Type} (f : α → β) (p : β → Bool)
    (l : List α) :
    (l.map f).filter p = (l.filter (fun a => p (f a))).map f := by
  induction l with
  | nil => rfl
  | cons a t ih =>
    simp only [List.map_cons, List.filter_cons]
    by_cases h : p (f a) <;> simp [h, ih]

theorem filter_beq_single :
    ∀ (l : List String), l.Nodup → ∀ img : String,
      l.filter (fun x => x == img) = if img ∈ l then [img] else [] := by
  intro l
  induction l with
  | nil => intro _ img; simp
  | cons a t ih =>
    intro hnd img
    rw [List.nodup_cons] at hnd
    rw [List.filter_cons]
    by_cases hai : a = img
    · subst hai
      rw [if_pos (by simp), ih hnd.2 a, if_neg hnd.1, if_pos (by simp)]
    · rw [if_neg (by simp [hai]), ih hnd.2 img]
      by_cases hmem : img ∈ t
      · rw [if_pos hmem, if_pos (by simp [hmem])]
      · rw [if_neg hmem, if_neg (by
          simp only [List.mem_cons, not_or]
          exact ⟨fun h => hai h.symm, hmem⟩)]

theorem filterMap_keyed :
    ∀ (l : List String), l.Nodup →
      ∀ (cond : String → Bool) (f : String → String) (img : String),
      ((l.filterMap (fun x => if cond x then some (x, f x) else none)).filter
          (fun p => p.1 == img))
        = if img ∈ l ∧ cond img = true then [(img, f img)] else [] := by
  intro l
  induction l with
  | nil => intro _ cond f img; simp
  | cons a t ih =>
    intro hnd cond f img
    rw [List.nodup_cons] at hnd
    rw [List.filterMap_cons]
    by_cases hca : cond a
    · rw [if_pos hca, List.filter_cons]
      by_cases hai : a = img
      · subst hai
        rw [if_pos (by simp), ih hnd.2 cond f a,
          if_neg (by simp [hnd.1]), if_pos (by simp [hca])]
      · rw [if_neg (by simp [hai]), ih hnd.2 cond f img]
        by_cases hmem : img ∈ t ∧ cond img = true
        · rw [if_pos hmem, if_pos (by simp [hmem.1, hmem.2])]
        · rw [if_neg hmem, if_neg ?_]
          rintro ⟨hm, hc⟩
          rcases List.mem_cons.mp hm with rfl | hm2
          · exact hai rfl
          · exact hmem ⟨hm2, hc⟩
    · rw [if_neg hca, ih hnd.2 cond f img]
      by_cases hai : img = a
      · subst hai
        rw [if_neg (by simp [hnd.1]), if_neg (by simp [hca])]
      · by_cases hmem : img ∈ t ∧ cond img = true
        · rw [if_pos hmem, if_pos (by simp [hmem.1, hmem.2])]
        · rw [if_neg hmem, if_neg ?_]
          rintro ⟨hm, hc⟩
          rcases List.mem_cons.mp hm with rfl | hm2
          · exact hai rfl
          · exact hmem ⟨hm2, hc⟩

theorem processed_any_key (inp : MainInput) (img : String) :
    ((processedImages inp).any (fun p => p.1 == img) = true)
      ↔ (img ∈ inp.referencedImages ∧ imageProcessedOk inp img = true) := by
  unfold processedImages
  rw [List.any_eq_true]
  constructor
  · rintro ⟨x, hx, hkey⟩
    obtain ⟨a, ha, hfa⟩ := List.mem_filterMap.mp hx
    by_cases hca : imageProcessedOk inp a
    · rw [if_pos hca] at hfa
      have hx1 : x.1 = a := by
        cases hfa; rfl
      have : a = img := by
        rw [← hx1]
        exact beq_iff_eq.mp hkey
      subst this
      exact ⟨ha, hca⟩
    · rw [if_neg hca] at hfa
      simp at hfa
  · rintro ⟨hmem, hok⟩
    exact ⟨(img, inp.optimizedBytes img),
      List.mem_filterMap.mpr ⟨img, hmem, by rw [if_pos hok]⟩, by simp⟩

theorem fixed_name_ne_image (s : String) (img : String)
    (h : char4D s ≠ 'i' ∨ headCharD s ≠ 'O') :
    (s == "OPS/images/" ++ img) = false := by
  apply beq_eq_false_iff_ne.mpr
  intro he
  rcases h with h | h
  · exact h (by rw [he]; exact char4D_imagesName img)
  · exact h (by rw [he]; exact headCharD_opsImagesName img)

theorem mainZip_filter_image_name (inp : MainInput) (img : String)
    (hrefd : inp.referencedImages.Nodup)
    (hdisk : inp.imagesOnDisk.Nodup) :
    (mainZipEntries inp).filter (fun e => e.name == "OPS/images/" ++ img)
      = (if img ∈ inp.referencedImages ∧ imageProcessedOk inp img = true
         then [⟨"OPS/images/" ++ img, ZipCompression.deflated,
               ZipData.raw (inp.optimizedBytes img)⟩]
         else [])
        ++ (if img ∈ remainingImages inp
            then [⟨"OPS/images/" ++ img, ZipCompression.deflated,
                  ZipData.raw (inp.originalBytes img)⟩]
            else []) := by
  have hm1 : (("mimetype" : String) == "OPS/images/" ++ img) = false :=
    fixed_name_ne_image _ img (Or.inr (by decide))
  have hm2 : (("META-INF/container.xml" : String)
      == "OPS/images/" ++ img) = false :=
    fixed_name_ne_image _ img (Or.inr (by decide))
  have hm3 : (("OPS/package.opf" : String) == "OPS/images/" ++ img) = false :=
    fixed_name_ne_image _ img (Or.inl (by decide))
  have hm4 : (("OPS/titlepage.xhtml" : String)
      == "OPS/images/" ++ img) = false :=
    fixed_name_ne_image _ img (Or.inl (by decide))
  have hm5 : (("OPS/TOC.xhtml" : String) == "OPS/images/" ++ img) = false :=
    fixed_name_ne_image _ img (Or.inl (by decide))
  have hm6 : (("OPS/toc.ncx" : String) == "OPS/images/" ++ img) = false :=
    fixed_name_ne_image _ img (Or.inl (by decide))
  have hch : (chapterEntries inp).filter
      (fun e => e.name == "OPS/images/" ++ img) = [] := by
    apply filter_nil_of_none
    intro e he
    simp only [chapterEntries] at he
    obtain ⟨p, _, rfl⟩ := List.mem_map.mp he
    apply beq_eq_false_iff_ne.mpr
    intro he2
    have h3 := congrArg char4D he2
    rw [char4D_chapterName, char4D_imagesName] at h3
    exact absurd h3 (by decide)
  have hpr : (((processedImages inp).map (fun p =>
        (⟨"OPS/images/" ++ p.1, ZipCompression.deflated,
          ZipData.raw p.2⟩ : ZipEntry))).filter
      (fun e => e.name == "OPS/images/" ++ img))
      = if img ∈ inp.referencedImages ∧ imageProcessedOk inp img = true
        then [⟨"OPS/images/" ++ img, ZipCompression.deflated,
              ZipData.raw (inp.optimizedBytes img)⟩]
        else [] := by
    rw [filter_map_comm]
    simp only [beq_append_cancel]
    rw [show processedImages inp
        = inp.referencedImages.filterMap (fun x =>
            if imageProcessedOk inp x then some (x, inp.optimizedBytes x)
            else none) from rfl]
    rw [filterMap_keyed inp.referencedImages hrefd
      (imageProcessedOk inp) inp.optimizedBytes img]
    by_cases hc : img ∈ inp.referencedImages
        ∧ imageProcessedOk inp img = true <;> simp [hc]
  have hremnd : (remainingImages inp).Nodup :=
    List.Nodup.filter _ (List.Nodup.filter _ hdisk)
  have hrem : (((remainingImages inp).map (fun fn =>
        (⟨"OPS/images/" ++ fn, ZipCompression.deflated,
          ZipData.raw (inp.originalBytes fn)⟩ : ZipEntry))).filter
      (fun e => e.name == "OPS/images/" ++ img))
      = if img ∈ remainingImages inp
        then [⟨"OPS/images/" ++ img, ZipCompression.deflated,
              ZipData.raw (inp.originalBytes img)⟩]
        else [] := by
    rw [filter_map_comm]
    simp only [beq_append_cancel]
    rw [filter_beq_single (remainingImages inp) hremnd img]
    by_cases h : img ∈ remainingImages inp <;> simp [h]
  have hcss : ((if inp.cssDirExists then
        ((allCssFilenames inp.default_css inp.chapters).filter
          (fun c => decide (c ∈ inp.cssOnDisk))).map (fun c =>
          (⟨"OPS/css/" ++ c, ZipCompression.deflated,
            ZipData.raw (inp.cssBytes c)⟩ : ZipEntry))
      else []).filter (fun e => e.name == "OPS/images/" ++ img)) = [] := by
    by_cases hcd : inp.cssDirExists
    · rw [if_pos hcd]
      apply filter_nil_of_none
      intro e he
      obtain ⟨c, _, rfl⟩ := List.mem_map.mp he
      apply beq_eq_false_iff_ne.mpr
      intro he2
      have h3 := congrArg char4D he2
      rw [char4D_cssName, char4D_imagesName] at h3
      exact absurd h3 (by decide)
    · rw [if_neg hcd]; rfl
  calc (mainZipEntries inp).filter (fun e => e.name == "OPS/images/" ++ img)
      = _ := by
        simp only [mainZipEntries, List.filter_append]
        rw [hch, hpr, hrem, hcss]
        simp only [List.filter_cons, List.filter_nil, hm1, hm2, hm3, hm4,
          hm5, hm6, Bool.false_eq_true, if_false, List.nil_append,
          List.append_nil]

/-- Claim C5 amended: with duplicate-free referenced and listed image
sets, every referenced image existing on disk appears as exactly one
member OPS/images/<name>: with the optimized bytes when its suffix is
one copy_and_optimize_image saves in place (.jpg, .jpeg, .png) and PIL
succeeds, but with its original unoptimized bytes when the suffix is
any other listed kind (notably .gif, which the pipeline saves under a
renamed .jpg path so the read back fails and the image falls through to
the unreferenced copy loop); every listed image referenced by no
chapter appears as exactly one member with its original bytes. -/
theorem image_members_amended (inp : MainInput)
    (hrefd : inp.referencedImages.Nodup)
    (hdisk : inp.imagesOnDisk.Nodup)
    (hsub : ∀ img ∈ inp.referencedImages, img ∈ inp.imagesOnDisk)
    (hpil : ∀ img ∈ inp.referencedImages, inp.pilOk img = true) :
    (∀ img ∈ inp.referencedImages, suffixLower img ∈ saveSuffixes →
      (mainZipEntries inp).filter (fun e => e.name == "OPS/images/" ++ img)
        = [⟨"OPS/images/" ++ img, ZipCompression.deflated,
            ZipData.raw (inp.optimizedBytes img)⟩])
  ∧ (∀ img ∈ inp.referencedImages, suffixLower img ∉ saveSuffixes →
      extLast img ∈ supportedExts →
      (mainZipEntries inp).filter (fun e => e.name == "OPS/images/" ++ img)
        = [⟨"OPS/images/" ++ img, ZipCompression.deflated,
            ZipData.raw (inp.originalBytes img)⟩])
  ∧ (∀ img ∈ get_all_filenames inp.imagesOnDisk supportedExts,
      img ∉ inp.referencedImages →
      (mainZipEntries inp).filter (fun e => e.name == "OPS/images/" ++ img)
        = [⟨"OPS/images/" ++ img, ZipCompression.deflated,
            ZipData.raw (inp.originalBytes img)⟩]) := by
  refine ⟨?_, ?_, ?_⟩
  · intro img hmem hsuffix
    have hok : imageProcessedOk inp img = true := by
      unfold imageProcessedOk
      rw [Bool.and_eq_true, Bool.and_eq_true]
      exact ⟨⟨decide_eq_true (hsub img hmem), hpil img hmem⟩,
        decide_eq_true hsuffix⟩
    rw [mainZip_filter_image_name inp img hrefd hdisk,
      if_pos ⟨hmem, hok⟩, if_neg ?_, List.append_nil]
    intro hr
    have hcond := (List.mem_filter.mp hr).2
    have hany := (processed_any_key inp img).mpr ⟨hmem, hok⟩
    rw [hany] at hcond
    simp at hcond
  · intro img hmem hnsuffix hext
    have hok : imageProcessedOk inp img = false := by
      unfold imageProcessedOk
      simp [hnsuffix]
    have hany : (processedImages inp).any (fun p => p.1 == img) = false := by
      rw [Bool.eq_false_iff]
      intro h
      have h2 := ((processed_any_key inp img).mp h).2
      rw [hok] at h2
      exact Bool.false_ne_true h2
    have hmemrem : img ∈ remainingImages inp := by
      unfold remainingImages
      refine List.mem_filter.mpr ⟨?_, ?_⟩
      · unfold get_all_filenames
        exact List.mem_filter.mpr ⟨hsub img hmem, decide_eq_true hext⟩
      · rw [hany]; rfl
    rw [mainZip_filter_image_name inp img hrefd hdisk,
      if_neg (by
        rintro ⟨_, hok2⟩
        rw [hok] at hok2
        exact Bool.false_ne_true hok2),
      if_pos hmemrem, List.nil_append]
  · intro img hmem hnref
    have hany : (processedImages inp).any (fun p => p.1 == img) = false := by
      rw [Bool.eq_false_iff]
      intro h
      exact hnref ((processed_any_key inp img).mp h).1
    have hmemrem : img ∈ remainingImages inp := by
      unfold remainingImages
      refine List.mem_filter.mpr ⟨hmem, ?_⟩
      rw [hany]; rfl
    rw [mainZip_filter_image_name inp img hrefd hdisk,
      if_neg (by rintro ⟨hmem2, _⟩; exact hnref hmem2),
      if_pos hmemrem, List.nil_append]

/-- A build whose single chapter references the listed image anim.gif:
the referenced image exists, PIL succeeds, yet the archive member holds
the original bytes. -/
def gifInput : MainInput :=
  ⟨[⟨"ch.md", ""⟩], ["style.css"],
   [("dc:title", "T"), ("dc:creator", "A")], none,
   ["anim.gif"], [], false, ["anim.gif"],
   fun _ => "XHTML", fun _ => "OPTIMIZED", fun _ => "ORIGINAL",
   fun _ => "", fun _ => true⟩

/-- Counterexample for C5: a referenced .gif is saved by
copy_and_optimize_image under a renamed .jpg path, the read back of
dest_path fails, and main writes the image once with its original
bytes, not the optimized bytes the claim requires. -/
theorem referenced_gif_gets_original_bytes :
    (mainZipEntries gifInput).filter
        (fun e => e.name == "OPS/images/anim.gif")
      = [⟨"OPS/images/anim.gif", ZipCompression.deflated,
          ZipData.raw "ORIGINAL"⟩]
  ∧ ZipData.raw "ORIGINAL" ≠ ZipData.raw "OPTIMIZED" := by
  constructor
  · decide
  · decide

/-- A build with one referenced .jpg image and one unreferenced .png
image, used to witness the amended C5. -/
def jpgInput : MainInput :=
  ⟨[⟨"ch.md", ""⟩], ["style.css"],
   [("dc:title", "T"), ("dc:creator", "A")], none,
   ["fig.jpg", "extra.png"], [], false, ["fig.jpg"],
   fun _ => "XHTML", fun _ => "OPT", fun _ => "RAW",
   fun _ => "", fun _ => true⟩

/-- Witness for the amended C5: the referenced fig.jpg appears exactly
once with optimized bytes. -/
theorem image_members_amended_witness :
    (mainZipEntries jpgInput).filter
        (fun e => e.name == "OPS/images/" ++ "fig.jpg")
      = [⟨"OPS/images/" ++ "fig.jpg", ZipCompression.deflated,
          ZipData.raw "OPT"⟩] :=
  (image_members_amended jpgInput (by decide) (by decide)
    (by decide) (by decide)).1 "fig.jpg" (by decide) (by decide)

/-! The chapter renderer image scan: process_markdown_for_images of
src/pdf2epub/mark2epub.py.  The regex finditer over the image pattern
is embedded as a character scanner with the same lazy-match semantics
(alt stops at the first bracket-paren pair, path at the first closing
paren, neither may cross a newline); Path.relative_to raising
ValueError on a foreign absolute path is embedded as an error value. -/

/-- Lazy match of the alt group: characters up to the first "](" with
no newline allowed; returns the group and the rest after "](". -/
def takeAlt : List Char → Option (List Char × List Char)
  | [] => none
  | '\n' :: _ => none
  | ']' :: '(' :: rest => some ([], rest)
  | c :: rest =>
    match takeAlt rest with
    | some (a, r) => some (c :: a, r)
    | none => none

/-- Lazy match of the path group: characters up to the first closing
paren with no newline allowed. -/
def takePath : List Char → Option (List Char × List Char)
  | [] => none
  | '\n' :: _ => none
  | ')' :: rest => some ([], rest)
  | c :: rest =>
    match takePath rest with
    | some (p, r) => some (c :: p, r)
    | none => none

/-- Fuel-indexed scan for all non-overlapping image references, left to
right, as re.finditer does on the image pattern. -/
def findImageRefsAux : Nat → List Char → List (String × String)
  | 0, _ => []
  | fuel + 1, l =>
    match l with
    | '!' :: '[' :: rest =>
      match takeAlt rest with
      | some (alt, r1) =>
        match takePath r1 with
        | some (path, r2) => (⟨alt⟩, ⟨path⟩) :: findImageRefsAux fuel r2
        | none => findImageRefsAux fuel ('[' :: rest)
      | none => findImageRefsAux fuel ('[' :: rest)
    | _ :: rest => findImageRefsAux fuel rest
    | [] => []

/-- All (alt, path) image references of a markdown text. -/
def findImageRefs (s : String) : List (String × String) :=
  findImageRefsAux (s.data.length + 1) s.data

/-- The exception Path.relative_to raises when the path does not start
with the work directory. -/
inductive PathError
  | notRelative (path workDir : String)
deriving DecidableEq

/-- The per-match body of the loop in process_markdown_for_images.
The accumulator carries the modified text, the images found, and the
warnings printed. -/
def processOneImageRef (workDir : String) (imagesOnDisk : List String)
    (acc : String × List String × List String) (ref : String × String) :
    Except PathError (String × List String × List String) :=
  let imagePath := pyStrip ref.2
  let name := pathName imagePath
  if pathIsAbsolute imagePath ∧ pathRelToOk imagePath workDir = false then
    Except.error (PathError.notRelative imagePath workDir)
  else
    if name ∈ imagesOnDisk then
      Except.ok
        (replaceAll acc.1 ("![" ++ ref.1 ++ "](" ++ ref.2 ++ ")")
          ("![" ++ ref.1 ++ "](images/" ++ name ++ ")"),
         acc.2.1 ++ [name], acc.2.2)
    else
      Except.ok (acc.1, acc.2.1,
        acc.2.2 ++ ["Warning: Image not found: "
          ++ workDir ++ "/images/" ++ name])

/-- process_markdown_for_images: scans the text, rewrites references to
existing images, records them, warns on missing ones, and propagates
the ValueError of Path.relative_to for an absolute path that is not
under the work directory. -/
def process_markdown_for_images (markdownText workDir : String)
    (imagesOnDisk : List String) :
    Except PathError (String × List String × List String) :=
  (findImageRefs markdownText).foldlM
    (processOneImageRef workDir imagesOnDisk) (markdownText, [], [])

/-- Claim C6: the first conjunct shows the claim is right for a
relative reference to a missing image (text unchanged, nothing
recorded, one warning, normal return), and the second shows the code
slip: an image reference with an absolute path outside the work
directory makes Path.relative_to raise ValueError before the existence
check runs, even though the image exists under images/, so rendering
aborts instead of returning normally. -/
theorem process_markdown_missing_image_behavior :
    process_markdown_for_images "![x](images/missing.png)" "/book" []
      = Except.ok ("![x](images/missing.png)", [],
          ["Warning: Image not found: /book/images/missing.png"])
  ∧ process_markdown_for_images "![x](/elsewhere/pic.png)" "/book"
      ["pic.png"]
      = Except.error (PathError.notRelative "/elsewhere/pic.png" "/book") := by
  constructor
  · rfl
  · rfl

/-! convert_to_epub (claims C7 and C10). -/

/-- Python exception values raised by convert_to_epub. -/
inductive PyError
  | fileNotFound (msg : String)
  | valueError (msg : String)
deriving DecidableEq

/-- Discriminator for the not-found error class. -/
def isNotFoundError {α : Type} : Except PyError α → Bool
  | Except.error (PyError.fileNotFound _) => true
  | _ => false

/-- convert_to_epub of src/pdf2epub/mark2epub.py: checks the directory,
checks the *.md glob, then calls main with the archive path it builds
itself from the directory; the ok value is the output location handed
to main.  The caller-supplied output path is a parameter the body never
reads. -/
def convert_to_epub (dirExists : Bool) (globMd : List String)
    (dirPath dirName : String) (outputPath : String) :
    Except PyError String :=
  if !dirExists then
    Except.error (PyError.fileNotFound
      ("Markdown directory not found: " ++ dirPath))
  else if globMd.isEmpty then
    Except.error (PyError.valueError
      ("No markdown files found in: " ++ dirPath))
  else
    Except.ok (dirPath ++ "/" ++ dirName ++ ".epub")

/-- Counterexample for C7: an existing chapter directory with zero
markdown files makes convert_to_epub raise ValueError, not a not-found
error, so the claim that both failure modes raise NotFoundError is
false. -/
theorem convert_to_epub_empty_dir_valueerror :
    convert_to_epub true [] "/books/demo" "demo" "/tmp/out.epub"
      = Except.error (PyError.valueError
          "No markdown files found in: /books/demo")
  ∧ isNotFoundError
      (convert_to_epub true [] "/books/demo" "demo" "/tmp/out.epub")
      = false := by
  constructor
  · rfl
  · rfl

/-- Claim C7 amended: convert_to_epub fails with FileNotFoundError when
the chapter directory does not exist, and with ValueError when the
directory exists but contains zero markdown files; in both cases an
error is returned and no archive path is produced. -/
theorem convert_to_epub_error_cases (dirExists : Bool)
    (globMd : List String) (dirPath dirName out : String) :
    (dirExists = false →
      convert_to_epub dirExists globMd dirPath dirName out
        = Except.error (PyError.fileNotFound
            ("Markdown directory not found: " ++ dirPath)))
  ∧ (dirExists = true → globMd = [] →
      convert_to_epub dirExists globMd dirPath dirName out
        = Except.error (PyError.valueError
            ("No markdown files found in: " ++ dirPath))) := by
  constructor
  · intro hd
    simp [convert_to_epub, hd]
  · intro hd hg
    simp [convert_to_epub, hd, hg]

/-- Witness for the amended C7 at a concrete missing directory. -/
theorem convert_to_epub_error_cases_witness :
    convert_to_epub false ["x.md"] "/a" "a" "/o.epub"
      = Except.error (PyError.fileNotFound
          "Markdown directory not found: /a") :=
  (convert_to_epub_error_cases false ["x.md"] "/a" "a" "/o.epub").1 rfl

/-- Claim C10: convert_to_epub ignores its output_path argument: the
result is identical for any two supplied output paths, and on success
the archive location handed to main is always
markdown_dir/<markdown_dir.name>.epub inside the chapter directory. -/
theorem convert_to_epub_ignores_output_path (dirExists : Bool)
    (globMd : List String) (dirPath dirName out1 out2 : String) :
    convert_to_epub dirExists globMd dirPath dirName out1
      = convert_to_epub dirExists globMd dirPath dirName out2
  ∧ (dirExists = true → globMd ≠ [] →
      convert_to_epub dirExists globMd dirPath dirName out1
        = Except.ok (dirPath ++ "/" ++ dirName ++ ".epub")) := by
  constructor
  · rfl
  · intro hd hg
    simp [convert_to_epub, hd, hg]

/-- Witness for C10 at a concrete conversion. -/
theorem convert_to_epub_ignores_output_path_witness :
    convert_to_epub true ["ch.md"] "/books/demo" "demo" "/tmp/out.epub"
      = Except.ok "/books/demo/demo.epub" :=
  ((convert_to_epub_ignores_output_path true ["ch.md"] "/books/demo"
    "demo" "/tmp/out.epub" "/other.epub").2 rfl (by simp)).trans (by rfl)

/-! The image pipeline dimension computation (claim C8):
copy_and_optimize_image computes ratio = min(max_dimension /
max(img.size), 1.0), truncates each scaled dimension with int(), and
resizes only when ratio < 1.  Floats are idealized as rationals. -/

/-- The output dimensions of copy_and_optimize_image. -/
def copy_and_optimize_size (w h maxDim : Nat) : Nat × Nat :=
  if min ((maxDim : ℚ) / ((max w h : Nat) : ℚ)) 1 < 1 then
    (⌊(w : ℚ) * min ((maxDim : ℚ) / ((max w h : Nat) : ℚ)) 1⌋.toNat,
     ⌊(h : ℚ) * min ((maxDim : ℚ) / ((max w h : Nat) : ℚ)) 1⌋.toNat)
  else (w, h)

/-- Claim C8: neither output dimension exceeds max_dimension; both
output dimensions are the same exact aspect-preserving ratio applied to
the source dimensions and rounded down by less than one pixel each, so
the aspect ratio changes only by that sub-pixel rounding; an image
already within the bound keeps its exact dimensions. -/
theorem optimize_bounds_and_aspect (w h maxDim : Nat)
    (hw : 0 < w) (hh : 0 < h) (hm : 0 < maxDim) :
    (copy_and_optimize_size w h maxDim).1 ≤ maxDim
  ∧ (copy_and_optimize_size w h maxDim).2 ≤ maxDim
  ∧ (∃ r : ℚ, 0 < r ∧ r ≤ 1
      ∧ (w : ℚ) * r - 1 < ((copy_and_optimize_size w h maxDim).1 : ℚ)
      ∧ ((copy_and_optimize_size w h maxDim).1 : ℚ) ≤ (w : ℚ) * r
      ∧ (h : ℚ) * r - 1 < ((copy_and_optimize_size w h maxDim).2 : ℚ)
      ∧ ((copy_and_optimize_size w h maxDim).2 : ℚ) ≤ (h : ℚ) * r)
  ∧ (max w h ≤ maxDim → copy_and_optimize_size w h maxDim = (w, h)) := by
  have hmaxnat : 0 < max w h := lt_max_of_lt_left hw
  have hmaxq : (0 : ℚ) < ((max w h : Nat) : ℚ) := by exact_mod_cast hmaxnat
  by_cases hcase : max w h ≤ maxDim
  · have hq1 : (1 : ℚ) ≤ (maxDim : ℚ) / ((max w h : Nat) : ℚ) :=
      (one_le_div hmaxq).mpr (by exact_mod_cast hcase)
    have hratio : min ((maxDim : ℚ) / ((max w h : Nat) : ℚ)) 1 = 1 :=
      min_eq_right hq1
    have hres : copy_and_optimize_size w h maxDim = (w, h) := by
      unfold copy_and_optimize_size
      rw [hratio, if_neg (lt_irrefl 1)]
    refine ⟨?_, ?_, ⟨1, one_pos, le_refl 1, ?_, ?_, ?_, ?_⟩, fun _ => hres⟩
    · rw [hres]; exact le_trans (le_max_left w h) hcase
    · rw [hres]; exact le_trans (le_max_right w h) hcase
    · rw [hres]; push_cast; linarith
    · rw [hres]; push_cast; linarith
    · rw [hres]; push_cast; linarith
    · rw [hres]; push_cast; linarith
  · have hlt : maxDim < max w h := Nat.lt_of_not_le hcase
    have hqlt : (maxDim : ℚ) / ((max w h : Nat) : ℚ) < 1 :=
      (div_lt_one hmaxq).mpr (by exact_mod_cast hlt)
    have hratio : min ((maxDim : ℚ) / ((max w h : Nat) : ℚ)) 1
        = (maxDim : ℚ) / ((max w h : Nat) : ℚ) :=
      min_eq_left (le_of_lt hqlt)
    have hq0 : (0 : ℚ) < (maxDim : ℚ) / ((max w h : Nat) : ℚ) :=
      div_pos (by exact_mod_cast hm) hmaxq
    have hres : copy_and_optimize_size w h maxDim
        = (⌊(w : ℚ) * ((maxDim : ℚ) / ((max w h : Nat) : ℚ))⌋.toNat,
           ⌊(h : ℚ) * ((maxDim : ℚ) / ((max w h : Nat) : ℚ))⌋.toNat) := by
      unfold copy_and_optimize_size
      rw [hratio, if_pos hqlt]
    have hbound : ∀ d : Nat, d ≤ max w h →
        (d : ℚ) * ((maxDim : ℚ) / ((max w h : Nat) : ℚ)) ≤ (maxDim : ℚ) := by
      intro d hd
      calc (d : ℚ) * ((maxDim : ℚ) / ((max w h : Nat) : ℚ))
          ≤ ((max w h : Nat) : ℚ) * ((maxDim : ℚ) / ((max w h : Nat) : ℚ)) := by
            apply mul_le_mul_of_nonneg_right (by exact_mod_cast hd)
              (le_of_lt hq0)
        _ = (maxDim : ℚ) := mul_div_cancel₀ _ (ne_of_gt hmaxq)
    have hnn : ∀ d : Nat,
        (0 : ℚ) ≤ (d : ℚ) * ((maxDim : ℚ) / ((max w h : Nat) : ℚ)) := by
      intro d
      exact mul_nonneg (by positivity) (le_of_lt hq0)
    have hfl : ∀ d : Nat,
        (0 : ℤ) ≤ ⌊(d : ℚ) * ((maxDim : ℚ) / ((max w h : Nat) : ℚ))⌋ := by
      intro d
      exact Int.floor_nonneg.mpr (hnn d)
    have hcast : ∀ d : Nat,
        ((⌊(d : ℚ) * ((maxDim : ℚ) / ((max w h : Nat) : ℚ))⌋.toNat : Nat) : ℚ)
          = (⌊(d : ℚ) * ((maxDim : ℚ) / ((max w h : Nat) : ℚ))⌋ : ℚ) := by
      intro d
      rw [show ((⌊(d : ℚ) * ((maxDim : ℚ) / ((max w h : Nat) : ℚ))⌋.toNat :
          Nat) : ℚ)
          = ((⌊(d : ℚ) * ((maxDim : ℚ) / ((max w h : Nat) : ℚ))⌋.toNat :
              ℤ) : ℚ) by push_cast; ring]
      rw [Int.toNat_of_nonneg (hfl d)]
    have hdim : ∀ d : Nat, d ≤ max w h →
        ⌊(d : ℚ) * ((maxDim : ℚ) / ((max w h : Nat) : ℚ))⌋.toNat ≤ maxDim := by
      intro d hd
      rw [Int.toNat_le]
      have h1 : ((d : ℚ) * ((maxDim : ℚ) / ((max w h : Nat) : ℚ)))
          ≤ ((maxDim : ℤ) : ℚ) := by
        rw [Int.cast_natCast]
        exact hbound d hd
      calc ⌊(d : ℚ) * ((maxDim : ℚ) / ((max w h : Nat) : ℚ))⌋
          ≤ ⌊((maxDim : ℤ) : ℚ)⌋ := Int.floor_le_floor h1
        _ = (maxDim : ℤ) := Int.floor_intCast _
    refine ⟨?_, ?_, ⟨(maxDim : ℚ) / ((max w h : Nat) : ℚ), hq0,
      le_of_lt hqlt, ?_, ?_, ?_, ?_⟩, fun hc => absurd hc hcase⟩
    · rw [hres]; exact hdim w (le_max_left w h)
    · rw [hres]; exact hdim h (le_max_right w h)
    · rw [hres]
      simp only
      rw [hcast w]
      exact Int.sub_one_lt_floor _
    · rw [hres]
      simp only
      rw [hcast w]
      exact Int.floor_le _
    · rw [hres]
      simp only
      rw [hcast h]
      exact Int.sub_one_lt_floor _
    · rw [hres]
      simp only
      rw [hcast h]
      exact Int.floor_le _

/-- Witness for C8 at the spec scenario: a 300 by 200 image with the
default bound 1800 keeps its exact dimensions. -/
theorem optimize_bounds_and_aspect_witness :
    copy_and_optimize_size 300 200 1800 = (300, 200) :=
  (optimize_bounds_and_aspect 300 200 1800 (by decide) (by decide)
    (by decide)).2.2.2 (by decide)

end Pdf2Epub
